import Mathlib

/-!
Verification of the vfs package (a unified virtual-filesystem facade over an
in-memory or disk-backed mutable store plus read-only bundled archives).

The mutable backing store (afero in the source) and the embedded archives
(embed.FS) are third-party black boxes; following the specification they are
modelled as finite maps from path strings to file entries.  A disk-backed
store may additionally contain an entry whose byte-level read fails
(`Entry.unreadable`), modelling the I/O failures the spec says are surfaced
verbatim from the backing store.  All facade logic (path classification,
normalization, read-only enforcement, copy/move/clone/dump sequencing, watch
availability and pattern matching) is translated directly from the Go source.
-/

namespace Vfs

/-- Decidable equality of fallible results, for evaluating concrete runs. -/
instance {ε α : Type} [DecidableEq ε] [DecidableEq α] : DecidableEq (Except ε α) := by
  intro x y
  cases x with
  | error e =>
    cases y with
    | error e2 => exact decidable_of_iff (e = e2) (by simp)
    | ok b => exact isFalse (by simp)
  | ok a =>
    cases y with
    | error e2 => exact isFalse (by simp)
    | ok b => exact decidable_of_iff (a = b) (by simp)

/-! ## Go string and path helpers (strings, path/filepath, Unix rules) -/

/-- Go's strings.HasPrefix, on the character sequences. -/
def strIsPfxOf (pre s : String) : Bool := pre.data.isPrefixOf s.data

/-- Splitting a character list on the separator, as strings.Split on "/". -/
def splitSlash : List Char → List (List Char)
  | [] => [[]]
  | c :: tl =>
    let r := splitSlash tl
    if c = '/' then [] :: r
    else
      match r with
      | [] => [[c]]
      | s :: rest => (c :: s) :: rest

/-- Stack-based elimination of empty, dot and dotdot segments, the lexical
core of Go's filepath.Clean (Unix).  The stack is kept reversed. -/
def cleanStack (rooted : Bool) : List (List Char) → List (List Char) → List (List Char)
  | stack, [] => stack.reverse
  | stack, seg :: rest =>
    if seg = [] ∨ seg = ['.'] then cleanStack rooted stack rest
    else if seg = ['.', '.'] then
      match stack with
      | [] => if rooted then cleanStack rooted [] rest else cleanStack rooted [['.', '.']] rest
      | top :: stk =>
        if top = ['.', '.'] then cleanStack rooted (seg :: (top :: stk)) rest
        else cleanStack rooted stk rest
    else cleanStack rooted (seg :: stack) rest

/-- Joining segments back with single separators. -/
def intercalSlash : List (List Char) → List Char
  | [] => []
  | [s] => s
  | s :: rest => s ++ '/' :: intercalSlash rest

/-- Go's filepath.Clean on Unix, on character lists: collapse separators,
drop "." segments, resolve ".." lexically, rooted ".." vanishes at the root. -/
def goCleanL (cs : List Char) : List Char :=
  match cs with
  | [] => ['.']
  | c :: _ =>
    if c = '/' then '/' :: intercalSlash (cleanStack true [] (splitSlash cs))
    else
      let body := intercalSlash (cleanStack false [] (splitSlash cs))
      if body = [] then ['.'] else body

/-- Go's filepath.Clean on Unix. -/
def goClean (s : String) : String := String.mk (goCleanL s.data)

/-- Go's filepath.IsAbs on Unix: the path starts with the separator. -/
def goIsAbs (s : String) : Bool :=
  match s.data with
  | c :: _ => decide (c = '/')
  | [] => false

/-- Go's filepath.Join("/", p): the two elements joined by a separator, then
cleaned (empty elements are dropped by Join, which Clean also absorbs). -/
def goJoinRoot (p : String) : String := String.mk (goCleanL ('/' :: '/' :: p.data))

/-- The portion of a path up to and including its last separator, when the
path contains one (the backwards scan of Go's filepath.Dir). -/
def dirPartL : List Char → Option (List Char)
  | [] => none
  | c :: tl =>
    match dirPartL tl with
    | some pre => some (c :: pre)
    | none => if c = '/' then some [c] else none

/-- Go's filepath.Dir: everything up to the last separator, cleaned; "." when
the path has no separator. -/
def goDir (s : String) : String :=
  match dirPartL s.data with
  | none => "."
  | some pre => String.mk (goCleanL pre)

/-- Go's filepath.Base: strip trailing separators, then take the last element;
"." for the empty path and "/" for an all-separator path. -/
def goBase (s : String) : String :=
  match s.data with
  | [] => "."
  | cs =>
    let trimmed := (cs.reverse.dropWhile (fun c => decide (c = '/'))).reverse
    match trimmed with
    | [] => "/"
    | t => String.mk (t.reverse.takeWhile (fun c => decide (c ≠ '/'))).reverse

/-- The chain of enclosing directories obtained by iterating filepath.Dir,
stopping at "/" or "." (fuelled; the fuel is ample for any input used). -/
def dirChainAux : Nat → String → List String
  | 0, _ => []
  | n + 1, p => if p = "/" ∨ p = "." then [p] else p :: dirChainAux n (goDir p)

/-- All intermediate directories created for a path handed to MkdirAll. -/
def dirChain (p : String) : List String := dirChainAux (p.length + 1) p

/-- Go's strings.HasSuffix. -/
def strEndsWith (s suffix0 : String) : Bool := suffix0.data.isSuffixOf s.data

/-- Go's strings.TrimSuffix. -/
def trimSuffix (s suffix0 : String) : String :=
  if strEndsWith s suffix0 then String.mk (s.data.take (s.data.length - suffix0.data.length))
  else s

/-- Go's strings.TrimPrefix. -/
def dropPfx (s pre : String) : String :=
  if strIsPfxOf pre s then String.mk (s.data.drop pre.data.length) else s

/-! ## Association-list helpers (determinising the Go maps) -/

def findA {α : Type} : List (String × α) → String → Option α
  | [], _ => none
  | (k0, v0) :: tl, k => if k0 = k then some v0 else findA tl k

def insertA {α : Type} : List (String × α) → String → α → List (String × α)
  | [], k, v => [(k, v)]
  | (k0, v0) :: tl, k, v =>
    if k0 = k then (k, v) :: tl else (k0, v0) :: insertA tl k v

def eraseA {α : Type} : List (String × α) → String → List (String × α)
  | [], _ => []
  | (k0, v0) :: tl, k => if k0 = k then tl else (k0, v0) :: eraseA tl k

/-- Lexicographic comparison on character lists (Go's byte order on ASCII). -/
def lexLe : List Char → List Char → Bool
  | [], _ => true
  | _ :: _, [] => false
  | x :: xs, y :: ys => if x = y then lexLe xs ys else decide (x < y)

/-- Insertion step of a sort by key. -/
def insertByKey {α : Type} (x : String × α) : List (String × α) → List (String × α)
  | [] => [x]
  | y :: tl => if lexLe x.1.data y.1.data then x :: y :: tl else y :: insertByKey x tl

/-- Sorting an association list by key, modelling the sorted directory walk of
the backing store (afero.Walk reads each directory in sorted order). -/
def sortByKey {α : Type} (l : List (String × α)) : List (String × α) :=
  l.foldr insertByKey []

def insertStr (x : String) : List String → List String
  | [] => [x]
  | y :: tl => if lexLe x.data y.data then x :: y :: tl else y :: insertStr x tl

/-- sort.Strings. -/
def sortStrings (l : List String) : List String := l.foldr insertStr []

/-! ## Data model (vfs.go / main.go / bundled.go) -/

/-- VFSType from vfs.go. -/
inductive VFSType
  | memory
  | disk
  | hybrid
  deriving DecidableEq

/-- Byte content and permission bits of one stored file. -/
structure FileData where
  data : List Nat
  mode : Nat
  deriving DecidableEq

/-- One entry of the mutable backing store.  `unreadable` models a disk-store
file whose byte-level read fails (the spec surfaces such store errors
verbatim); memory stores never contain one. -/
inductive Entry
  | file (fd : FileData)
  | unreadable
  deriving DecidableEq

/-- Stat result (the fields of fs.FileInfo the facade consumes). -/
structure GoFileInfo where
  mode : Nat
  isDir : Bool
  deriving DecidableEq

/-- BundledFS from bundled.go: a read-only embedded archive (a black-box path
to file map in this model), the stored URL name and the subdirectory offset. -/
structure BundledFS where
  archive : List (String × FileData)
  pfx : String
  subdir : String
  deriving DecidableEq

/-- getFullPath: apply the subdirectory offset (filepath.Join) before
delegating to the archive. -/
def BundledFS.getFullPath (b : BundledFS) (path : String) : String :=
  if b.subdir = "" then path else goClean (b.subdir ++ "/" ++ path)

/-- getOriginalPath: strip the subdirectory offset again. -/
def BundledFS.getOriginalPath (b : BundledFS) (fullPath : String) : String :=
  if b.subdir = "" then fullPath else dropPfx fullPath (b.subdir ++ "/")

/-- BundledFS.ReadFile: fs.ReadFile on the embedded archive. -/
def BundledFS.ReadFile (b : BundledFS) (path : String) : Except String (List Nat) :=
  match findA b.archive (b.getFullPath path) with
  | some fd => .ok fd.data
  | none => .error "file does not exist"

/-- A path names a directory implied by the archive's file entries (embed.FS
synthesises directory entries above its files; "." is the archive root). -/
def BundledFS.impliedDir (b : BundledFS) (full : String) : Bool :=
  full = "." || b.archive.any (fun kv => strIsPfxOf (full ++ "/") kv.1)

/-- BundledFS.Stat via fs.Stat on the embedded archive. -/
def BundledFS.Stat (b : BundledFS) (path : String) : Except String GoFileInfo :=
  let full := b.getFullPath path
  match findA b.archive full with
  | some fd => .ok ⟨fd.mode, false⟩
  | none =>
    if b.impliedDir full then .ok ⟨0o555, true⟩ else .error "file does not exist"

/-- BundledFS.Exists: the stat succeeds. -/
def BundledFS.Exists (b : BundledFS) (path : String) : Bool :=
  match b.Stat path with
  | .ok _ => true
  | .error _ => false

/-- BundledFS.IsDir: the stat succeeds and reports a directory. -/
def BundledFS.IsDir (b : BundledFS) (path : String) : Bool :=
  match b.Stat path with
  | .ok info => info.isDir
  | .error _ => false

/-- BundledFS.Walk restricted to what Dump consumes: the bundled URLs of the
archive's file entries under the given root, in the sorted order of
fs.WalkDir (directory entries, which only pad the rendering, are elided;
walking the empty root of an offset-free archive yields nothing because the
stat of "" fails and Dump discards that error). -/
def BundledFS.walkPaths (b : BundledFS) (root : String) : List String :=
  let fullRoot := b.getFullPath root
  if fullRoot = "" then []
  else
    (sortStrings (b.archive.map (fun kv => kv.1))).filterMap (fun k =>
      if k = fullRoot ∨ strIsPfxOf (fullRoot ++ "/") k then
        some (b.pfx ++ "://" ++ b.getOriginalPath k)
      else none)

/-! ## Bundled registry (bundled.go, BundledManager) -/

/-- The registry map, keyed by the sentinel-qualified URL form.  The Go map is
determinised as an association list in registration order. -/
abbrev BundledRegistry : Type := List (String × BundledFS)

/-- The sentinel-qualified form under which a name is keyed. -/
def regKey (pfx0 : String) : String :=
  if strEndsWith pfx0 "://" then pfx0 else pfx0 ++ "://"

/-- Register: ensure the key carries the "://" sentinel, build the entry and
store it, silently replacing any previous entry under the same key.  The Go
function's error result is the constant nil. -/
def bmRegister (bm : BundledRegistry) (pfx0 : String) (archive : List (String × FileData))
    (subdir : String) : Option String × BundledRegistry :=
  (none, insertA bm (regKey pfx0) ⟨archive, trimSuffix (regKey pfx0) "://", subdir⟩)

/-- GetBundledFS: the first registered key that is a string prefix of the path
wins; the key is stripped from the path. -/
def getBundledFS : BundledRegistry → String → Option (BundledFS × String)
  | [], _ => none
  | (key, b) :: tl, path =>
    if strIsPfxOf key path then some (b, dropPfx path key) else getBundledFS tl path

/-- IsBundledPath: some registered key is a string prefix of the path. -/
def isBundledPath (bm : BundledRegistry) (path : String) : Bool :=
  bm.any (fun kv => strIsPfxOf kv.1 path)

/-- ListRegistered: all keys with the sentinel stripped. -/
def listRegistered (bm : BundledRegistry) : List String :=
  bm.map (fun kv => trimSuffix kv.1 "://")

/-! ## The mutable backing store

The spec treats the byte-level storage engine as a black box with
capabilities read / write / stat / list / walk; it is modelled as a finite
map from path strings to entries plus a map of explicitly created
directories (the root "/" always exists). -/

structure MutStore where
  files : List (String × Entry)
  dirs : List (String × Nat)
  deriving DecidableEq

def emptyStore : MutStore := ⟨[], []⟩

def storeRead (s : MutStore) (p : String) : Except String (List Nat) :=
  match findA s.files p with
  | some (.file fd) => .ok fd.data
  | some .unreadable => .error "input/output error"
  | none => .error "file does not exist"

def storeStat (s : MutStore) (p : String) : Except String GoFileInfo :=
  match findA s.files p with
  | some (.file fd) => .ok ⟨fd.mode, false⟩
  | some .unreadable => .ok ⟨0, false⟩
  | none =>
    if p = "/" then .ok ⟨0o755, true⟩
    else
      match findA s.dirs p with
      | some m => .ok ⟨m, true⟩
      | none => .error "file does not exist"

/-- One creation step of MkdirAll: add a missing directory with the given
permission bits; "/", "." and already-present directories are left alone. -/
def mkdirStep (perm : Nat) (d : List (String × Nat)) (el : String) : List (String × Nat) :=
  if el = "/" ∨ el = "." ∨ (findA d el).isSome then d else insertA d el perm

/-- MkdirAll on the store: create the directory and every missing ancestor,
each with the given permission bits. -/
def storeMkdirAll (s : MutStore) (p : String) (perm : Nat) : MutStore :=
  { s with dirs := (dirChain p).foldl (mkdirStep perm) s.dirs }

def storeWrite (s : MutStore) (p : String) (data : List Nat) (perm : Nat) : MutStore :=
  { s with files := insertA s.files p (.file ⟨data, perm⟩) }

/-- A key lies at or strictly below a path. -/
def underPath (p k : String) : Bool := k = p || strIsPfxOf (p ++ "/") k

def storeRemove (s : MutStore) (p : String) : Option String × MutStore :=
  if (findA s.files p).isSome then (none, { s with files := eraseA s.files p })
  else if (findA s.dirs p).isSome then
    if s.files.any (fun kv => strIsPfxOf (p ++ "/") kv.1)
        || s.dirs.any (fun kv => strIsPfxOf (p ++ "/") kv.1) then
      (some "directory not empty", s)
    else (none, { s with dirs := eraseA s.dirs p })
  else (some "file does not exist", s)

def storeRemoveAll (s : MutStore) (p : String) : MutStore :=
  ⟨s.files.filter (fun kv => !underPath p kv.1),
   s.dirs.filter (fun kv => !underPath p kv.1)⟩

/-! ## Watch bookkeeping (watch.go)

Callbacks are opaque function values in Go; the registration map stores an
opaque identifier for each. -/

structure WatchState where
  watches : List (String × Nat)
  closed : Bool
  deriving DecidableEq

/-! ## The VFS facade (main.go) -/

structure VFS where
  vfsType : VFSType
  root : String
  store : MutStore
  bundledManager : BundledRegistry
  watchManager : Option WatchState
  deriving DecidableEq

/-- New: memory and hybrid instances get an ephemeral store and no watch
subsystem; disk instances rebase "/" to ".", bind the store and own a watch
manager. -/
def New (t : VFSType) (root0 : String) : VFS :=
  if t = .disk then
    ⟨t, if root0 = "/" then "." else root0, emptyStore, [], some ⟨[], false⟩⟩
  else ⟨t, root0, emptyStore, [], none⟩

/-- normalizePath over a registry: bundled paths are returned as-is; a
relative path is joined onto "/" (which also cleans it); an absolute path is
returned unchanged. -/
def normalizePathBM (bm : BundledRegistry) (path : String) : String :=
  if isBundledPath bm path then path
  else if goIsAbs path then path
  else goJoinRoot path

def VFS.normalizePath (v : VFS) (path : String) : String :=
  normalizePathBM v.bundledManager path

def VFS.ReadFile (v : VFS) (filename : String) : Except String (List Nat) :=
  match getBundledFS v.bundledManager filename with
  | some (b, bp) => b.ReadFile bp
  | none => storeRead v.store (v.normalizePath filename)

/-- WriteFile: reject bundled paths; otherwise create the parent directory
chain with permission 0755 and store the bytes. -/
def VFS.WriteFile (v : VFS) (filename : String) (data : List Nat) (perm : Nat) :
    Option String × VFS :=
  if isBundledPath v.bundledManager filename then
    (some ("cannot write to bundled URL: " ++ filename), v)
  else
    let p := v.normalizePath filename
    let s1 := storeMkdirAll v.store (goDir p) 0o755
    (none, { v with store := storeWrite s1 p data perm })

def VFS.MkdirAll (v : VFS) (path : String) (perm : Nat) : Option String × VFS :=
  if isBundledPath v.bundledManager path then
    (some ("cannot create directories in bundled URL: " ++ path), v)
  else (none, { v with store := storeMkdirAll v.store (v.normalizePath path) perm })

def VFS.Remove (v : VFS) (path : String) : Option String × VFS :=
  if isBundledPath v.bundledManager path then
    (some ("cannot remove bundled URL: " ++ path), v)
  else
    let r := storeRemove v.store (v.normalizePath path)
    (r.1, { v with store := r.2 })

def VFS.RemoveAll (v : VFS) (path : String) : Option String × VFS :=
  if isBundledPath v.bundledManager path then
    (some ("cannot remove bundled URL: " ++ path), v)
  else (none, { v with store := storeRemoveAll v.store (v.normalizePath path) })

def VFS.Stat (v : VFS) (path : String) : Except String GoFileInfo :=
  match getBundledFS v.bundledManager path with
  | some (b, bp) => b.Stat bp
  | none => storeStat v.store (v.normalizePath path)

def VFS.Exists (v : VFS) (path : String) : Bool :=
  match getBundledFS v.bundledManager path with
  | some (b, bp) => b.Exists bp
  | none =>
    match storeStat v.store (v.normalizePath path) with
    | .ok _ => true
    | .error _ => false

def VFS.IsDir (v : VFS) (path : String) : Bool :=
  match getBundledFS v.bundledManager path with
  | some (b, bp) => b.IsDir bp
  | none =>
    match storeStat v.store (v.normalizePath path) with
    | .ok info => info.isDir
    | .error _ => false

/-- Copy: read the source fully, stat it for its mode bits, write the
destination with the same bits. -/
def VFS.Copy (v : VFS) (src dst : String) : Option String × VFS :=
  match v.ReadFile src with
  | .error e => (some ("failed to read source file " ++ src ++ ": " ++ e), v)
  | .ok data =>
    match v.Stat src with
    | .error e => (some ("failed to stat source file " ++ src ++ ": " ++ e), v)
    | .ok info => v.WriteFile dst data info.mode

/-- Move: Copy, then Remove the source; no rollback of a completed copy. -/
def VFS.Move (v : VFS) (src dst : String) : Option String × VFS :=
  match v.Copy src dst with
  | (some e, v1) => (some e, v1)
  | (none, v1) => v1.Remove src

/-! ## Clone (main.go)

Clone walks the source from "/", skips directories and bundled paths, reads
each remaining file through the facade and writes it into a fresh
memory-backed instance that shares the bundled registry.  The error result of
the walk is discarded. -/

/-- The mode bits the walk's FileInfo reports for a store entry (unused for
an entry whose read fails, since the callback aborts first). -/
def cloneMode : Entry → Nat
  | .file fd => fd.mode
  | .unreadable => 0

/-- The walk callback of Clone, folded over the store's file entries in the
sorted order of the backing store's walk; an error aborts the remaining walk
(directory entries are skipped by the callback and contribute nothing). -/
def cloneLoop (v : VFS) : List (String × Entry) → VFS → Option String × VFS
  | [], acc => (none, acc)
  | (k, ent) :: tl, acc =>
    if isBundledPath v.bundledManager k then cloneLoop v tl acc
    else
      match v.ReadFile k with
      | .error e => (some e, acc)
      | .ok data =>
        match acc.WriteFile k data (cloneMode ent) with
        | (some e, acc2) => (some e, acc2)
        | (none, acc2) => cloneLoop v tl acc2

/-- The whole walk of Clone, returning the walk's error result and the
populated clone. -/
def VFS.cloneWalk (v : VFS) : Option String × VFS :=
  cloneLoop v (sortByKey v.store.files)
    ⟨.memory, v.root, emptyStore, v.bundledManager, none⟩

/-- Clone: the walk's error result is dropped; whatever was copied before a
failure is all the caller gets. -/
def VFS.Clone (v : VFS) : VFS := (v.cloneWalk).2

/-! ## Dump (main.go) -/

/-- An io.Writer as Dump can observe it: the nil interface (whose Write call
panics), a writer whose writes always fail, or a buffer. -/
inductive GoWriter
  | nilWriter
  | errWriter
  | buffer (chunks : List String)
  deriving DecidableEq

/-- A Go runtime panic (nil interface method call). -/
inductive GoPanic
  | nilInterface
  deriving DecidableEq

/-- io.WriteString as used by Dump: the call sites discard the (n, err)
result, so only the possible panic of a nil writer and the buffered bytes
remain observable. -/
def writeString (w : GoWriter) (s : String) : Except GoPanic GoWriter :=
  match w with
  | .nilWriter => .error .nilInterface
  | .errWriter => .ok .errWriter
  | .buffer cs => .ok (.buffer (cs ++ [s]))

/-- Appending to the list of children of a tree node. -/
def appendA (l : List (String × List String)) (k x : String) : List (String × List String) :=
  match l with
  | [] => [(k, [x])]
  | (k0, xs) :: tl => if k0 = k then (k0, xs ++ [x]) :: tl else (k0, xs) :: appendA tl k x

/-- The parent-to-children map Dump builds while walking the mutable
namespace from "/": every visited path except the root itself is appended
under its filepath.Dir. -/
def dumpTree (v : VFS) : List (String × List String) :=
  (sortStrings (v.store.files.map (fun kv => kv.1) ++ v.store.dirs.map (fun kv => kv.1))).foldl
    (fun tr p =>
      if p = "/" then tr
      else
        let pr := goDir p
        appendA tr (if pr = "." then "/" else pr) p)
    []

/-- Fuel ample for printing a well-founded tree: one unit per node and edge. -/
def treeFuel (tree : List (String × List String)) : Nat :=
  tree.foldl (fun n kv => n + kv.2.length + 1) 2

mutual

/-- printTree from main.go: sort the children of the root, then print each
with its connector and recurse into those that are themselves tree keys. -/
def printTreeGo : Nat → List (String × List String) → String → String → GoWriter →
    Except GoPanic GoWriter
  | 0, _, _, _, w => .ok w
  | fuel + 1, tree, root, indent, w =>
    let entries := sortStrings (match findA tree root with | some es => es | none => [])
    printEntries fuel tree entries indent w

/-- The entry loop of printTree. -/
def printEntries : Nat → List (String × List String) → List String → String → GoWriter →
    Except GoPanic GoWriter
  | 0, _, _, _, w => .ok w
  | _ + 1, _, [], _, w => .ok w
  | fuel + 1, tree, p :: rest, indent, w => do
    let isLast := rest.isEmpty
    let connector := if isLast then "└── " else "├── "
    let w1 ← writeString w (indent ++ connector ++ goBase p ++ "\n")
    let w2 ←
      match findA tree p with
      | some _ => printTreeGo fuel tree p (indent ++ (if isLast then "    " else "│   ")) w1
      | none => pure w1
    printEntries fuel tree rest indent w2

end

/-- The parent-to-children map Dump builds for one bundled archive: walk the
bundle from its root, strip the URL sentinel, skip empty and "." paths and
group the rest under their parent ("." becomes the empty root). -/
def bundleTree (b : BundledFS) (pfx0 : String) : List (String × List String) :=
  (b.walkPaths "").foldl
    (fun tr path =>
      let cleanPath := dropPfx path (pfx0 ++ "://")
      if cleanPath = "" ∨ cleanPath = "." then tr
      else
        let pr := goDir cleanPath
        appendA tr (if pr = "." then "" else pr) cleanPath)
    []

/-- The bundled-filesystems section of Dump: one header and rendered subtree
per registered name (a name whose lookup fails is skipped; errors of the
bundled walk are discarded by the tree-building callback). -/
def dumpBundles (v : VFS) : List String → GoWriter → Except GoPanic GoWriter
  | [], w => .ok w
  | pfx0 :: rest, w => do
    let w1 ← writeString w ("Bundle [" ++ pfx0 ++ "://]:\n")
    let w2 ←
      match getBundledFS v.bundledManager (pfx0 ++ "://") with
      | none => pure w1
      | some (b, _) =>
        let bt := bundleTree b pfx0
        printTreeGo (treeFuel bt) bt "" "  " w1
    dumpBundles v rest w2

/-- Dump: header, sorted tree of the mutable namespace, then one rendered
subtree per registered bundled name.  Write errors are discarded throughout;
in this model the walk of the mutable namespace itself cannot fail (the only
error Dump would propagate), so the error result is nil whenever no write
panics. -/
def VFS.Dump (v : VFS) (w : GoWriter) : Except GoPanic (Option String × GoWriter) := do
  let w1 ← writeString w "--- VFS Root ---\n"
  let tree := dumpTree v
  let w2 ← printTreeGo (treeFuel tree) tree "/" "" w1
  let pfxs := listRegistered v.bundledManager
  if pfxs.isEmpty then return (none, w2)
  else
    let w3 ← writeString w2 "\n--- Bundled Filesystems ---\n"
    let w4 ← dumpBundles v pfxs w3
    return (none, w4)

/-! ## Watch facade (watch.go) -/

/-- The fixed capability error of every watch call on a non-disk instance. -/
def notAvailErr : String := "watching is only available for disk-based VFS"

/-- VFS.Watch: without a watch manager the fixed capability error; with one,
delegate (a closed manager refuses, an open one records the registration;
the native Add of fsnotify is modelled as succeeding). -/
def VFS.Watch (v : VFS) (pattern : String) (actionId : Nat) : Option String × VFS :=
  match v.watchManager with
  | none => (some notAvailErr, v)
  | some wm =>
    if wm.closed then (some "watch manager is not available", v)
    else (none, { v with watchManager := some ⟨insertA wm.watches pattern actionId, false⟩ })

def VFS.StopWatch (v : VFS) (pattern : String) : Option String × VFS :=
  match v.watchManager with
  | none => (some notAvailErr, v)
  | some wm =>
    if wm.closed then (none, v)
    else (none, { v with watchManager := some ⟨eraseA wm.watches pattern, false⟩ })

def VFS.StopAllWatches (v : VFS) : Option String × VFS :=
  match v.watchManager with
  | none => (some notAvailErr, v)
  | some wm =>
    if wm.closed then (none, v)
    else (none, { v with watchManager := some ⟨[], false⟩ })

def VFS.IsWatching (v : VFS) (pattern : String) : Bool :=
  match v.watchManager with
  | none => false
  | some wm => if wm.closed then false else (findA wm.watches pattern).isSome

/-! ## Glob matching (Go's path/filepath.Match, Unix separator)

The matcher is translated byte for byte from the Go standard library; the
recursions are fuelled, every call strictly shrinking pattern plus name, so
the initial fuel used by goMatch is ample.  Strings are treated as their
character sequences (the source operates on bytes; on ASCII the two agree). -/

/-- scanChunk's scan for the chunk boundary: stop at a '*' that is not inside
a bracket class; a backslash carries the next character along. -/
def scanChunkAux : List Char → Bool → List Char × List Char
  | [], _ => ([], [])
  | c :: tl, inr =>
    if c = '\\' then
      match tl with
      | d :: tl2 =>
        let r := scanChunkAux tl2 inr
        (c :: d :: r.1, r.2)
      | [] => ([c], [])
    else if c = '[' then
      let r := scanChunkAux tl true
      (c :: r.1, r.2)
    else if c = ']' then
      let r := scanChunkAux tl false
      (c :: r.1, r.2)
    else if c = '*' then
      if inr then
        let r := scanChunkAux tl inr
        (c :: r.1, r.2)
      else ([], c :: tl)
    else
      let r := scanChunkAux tl inr
      (c :: r.1, r.2)

/-- scanChunk: strip leading stars, then cut the pattern at the next
unbracketed star. -/
def scanChunk (p : List Char) : Bool × List Char × List Char :=
  let star := match p with | '*' :: _ => true | _ => false
  let p1 := p.dropWhile (fun c => decide (c = '*'))
  let r := scanChunkAux p1 false
  (star, r.1, r.2)

/-- getEsc: one (possibly escaped) class character; errors on a malformed or
exhausted class. -/
def getEsc : List Char → Except Unit (Char × List Char)
  | [] => .error ()
  | c :: tl =>
    if c = '-' ∨ c = ']' then .error ()
    else if c = '\\' then
      match tl with
      | [] => .error ()
      | d :: tl2 => if tl2.isEmpty then .error () else .ok (d, tl2)
    else if tl.isEmpty then .error () else .ok (c, tl)

/-- The range loop of a bracket class: accumulate whether any lo-hi range
contains the rune; a ']' closes the class once at least one range was read. -/
def classRanges (r : Char) : Nat → List Char → Bool → Bool → Except Unit (Bool × List Char)
  | 0, _, _, _ => .error ()
  | fuel + 1, chunk, m, started =>
    match chunk with
    | ']' :: tl =>
      if started then .ok (m, tl)
      else .error ()
    | _ => do
      let lo ← getEsc chunk
      match lo.2 with
      | '-' :: ch2 => do
        let hi ← getEsc ch2
        classRanges r fuel hi.2 (m || (decide (lo.1 ≤ r) && decide (r ≤ hi.1))) true
      | ch1 => classRanges r fuel ch1 (m || decide (lo.1 = r)) true

/-- matchChunk: match one star-free chunk at the head of the name; after a
mismatch the chunk is still parsed to completion so malformed patterns keep
reporting their error. -/
def matchChunk : Nat → List Char → List Char → Bool → Except Unit (List Char × Bool)
  | 0, _, _, _ => .error ()
  | fuel + 1, chunk, s, failed0 =>
    match chunk with
    | [] => if failed0 then .ok ([], false) else .ok (s, true)
    | c :: ctl =>
      let failed := failed0 || s.isEmpty
      if c = '[' then
        let rs : Char × List Char :=
          if failed then (Char.ofNat 0, s)
          else match s with | [] => (Char.ofNat 0, s) | x :: xs => (x, xs)
        let nc : Bool × List Char :=
          match ctl with | '^' :: t => (true, t) | _ => (false, ctl)
        match classRanges rs.1 (ctl.length + 1) nc.2 false false with
        | .error _ => .error ()
        | .ok (m, restChunk) => matchChunk fuel restChunk rs.2 (failed || (m == nc.1))
      else if c = '?' then
        if failed then matchChunk fuel ctl s failed
        else
          match s with
          | [] => matchChunk fuel ctl [] true
          | x :: xs => matchChunk fuel ctl xs (decide (x = '/'))
      else if c = '\\' then
        match ctl with
        | [] => .error ()
        | d :: dtl =>
          if failed then matchChunk fuel dtl s failed
          else
            match s with
            | [] => matchChunk fuel dtl [] true
            | x :: xs => matchChunk fuel dtl xs (decide (d ≠ x))
      else
        if failed then matchChunk fuel ctl s failed
        else
          match s with
          | [] => matchChunk fuel ctl [] true
          | x :: xs => matchChunk fuel ctl xs (decide (c ≠ x))

mutual

/-- Match's main loop: peel one chunk, try it in place, and on failure with a
star try every later start position on this path element. -/
def goMatchAux : Nat → List Char → List Char → Except Unit Bool
  | 0, _, _ => .error ()
  | fuel + 1, pat, name =>
    match pat with
    | [] => .ok name.isEmpty
    | _ :: _ =>
      let sc := scanChunk pat
      if sc.1 && sc.2.1.isEmpty then .ok (!name.contains '/')
      else
        match matchChunk (sc.2.1.length + 1) sc.2.1 name false with
        | .error _ => .error ()
        | .ok (t, ok) =>
          if ok && (t.isEmpty || !sc.2.2.isEmpty) then goMatchAux fuel sc.2.2 t
          else if sc.1 then starLoop fuel sc.2.1 sc.2.2 name
          else .ok false

/-- The star-skip loop: advance through the name one character at a time, but
never across a separator. -/
def starLoop : Nat → List Char → List Char → List Char → Except Unit Bool
  | 0, _, _, _ => .error ()
  | fuel + 1, chunk, rest, name =>
    match name with
    | [] => .ok false
    | c :: tl =>
      if c = '/' then .ok false
      else
        match matchChunk (chunk.length + 1) chunk tl false with
        | .error _ => .error ()
        | .ok (t, ok) =>
          if ok then
            if rest.isEmpty && !t.isEmpty then starLoop fuel chunk rest tl
            else goMatchAux fuel rest t
          else starLoop fuel chunk rest tl

end

/-- filepath.Match on pattern and name. -/
def goMatch (pat name : String) : Except Unit Bool :=
  goMatchAux (pat.data.length + name.data.length + 2) pat.data name.data

/-- pathMatches from watch.go: exact match, then root pattern or directory
containment, then the glob match (whose parse error yields false). -/
def pathMatches (filePath watchPath : String) : Bool :=
  if filePath = watchPath then true
  else if watchPath = "/" || strIsPfxOf (watchPath ++ "/") filePath then true
  else
    match goMatch watchPath filePath with
    | .error _ => false
    | .ok m => m

/-! ## Well-formedness of stores and registries

These express invariants every instance built through the public surface
satisfies: registered names use the `name://` syntax (so no key is empty or
begins with the separator), a memory store holds only readable regular files,
and the facade only ever stores files under absolute keys. -/

/-- Every registered key is nonempty and does not begin with the separator. -/
def registryWF (bm : BundledRegistry) : Bool :=
  bm.all (fun kv => match kv.1.data with | [] => false | c :: _ => decide (c ≠ '/'))

/-- Every stored file is a readable regular file (always true of a memory
store). -/
def allReadable (s : MutStore) : Bool :=
  s.files.all (fun kv => match kv.2 with | .file _ => true | .unreadable => false)

/-- Every stored file key is absolute (the facade writes only normalized
keys). -/
def keysAbs (s : MutStore) : Bool := s.files.all (fun kv => goIsAbs kv.1)

/-- No two entries of an association list share a key (the map invariant). -/
def NodupKeys {α : Type} (l : List (String × α)) : Prop :=
  l.Pairwise (fun a b => a.1 ≠ b.1)

instance {α : Type} (l : List (String × α)) : Decidable (NodupKeys l) :=
  inferInstanceAs (Decidable (l.Pairwise _))

/-! ## Lemmas: association lists -/

theorem findA_insertA_self {α : Type} (l : List (String × α)) (k : String) (v : α) :
    findA (insertA l k v) k = some v := by
  induction l with
  | nil => simp [insertA, findA]
  | cons kv tl ih =>
    obtain ⟨k0, v0⟩ := kv
    by_cases h : k0 = k
    · simp [insertA, h, findA]
    · simp [insertA, h, findA, ih]

theorem findA_insertA_ne {α : Type} (l : List (String × α)) (k k' : String) (v : α)
    (h : k' ≠ k) : findA (insertA l k v) k' = findA l k' := by
  induction l with
  | nil =>
    simp only [insertA, findA]
    rw [if_neg (fun e => h e.symm)]
  | cons kv tl ih =>
    obtain ⟨k0, v0⟩ := kv
    by_cases h0 : k0 = k
    · subst h0
      simp only [insertA, if_pos rfl, findA]
      rw [if_neg (fun e => h e.symm), if_neg (fun e => h e.symm)]
    · simp only [insertA, if_neg h0, findA]
      by_cases h1 : k0 = k'
      · rw [if_pos h1, if_pos h1]
      · rw [if_neg h1, if_neg h1]
        exact ih

theorem mem_insertA_cases {α : Type} {l : List (String × α)} {k : String} {v : α}
    {b : String × α} (h : b ∈ insertA l k v) : b ∈ l ∨ b = (k, v) := by
  induction l with
  | nil =>
    simp only [insertA] at h
    exact Or.inr (List.mem_singleton.mp h)
  | cons kv tl ih =>
    obtain ⟨k0, v0⟩ := kv
    by_cases h0 : k0 = k
    · subst h0
      rw [insertA, if_pos rfl] at h
      rcases List.mem_cons.mp h with he | hm
      · exact Or.inr he
      · exact Or.inl (List.mem_cons_of_mem _ hm)
    · rw [insertA, if_neg h0] at h
      rcases List.mem_cons.mp h with he | hm
      · exact Or.inl (he ▸ List.mem_cons_self _ _)
      · rcases ih hm with h2 | h2
        · exact Or.inl (List.mem_cons_of_mem _ h2)
        · exact Or.inr h2

theorem mem_insertA_self {α : Type} (l : List (String × α)) (k : String) (v : α) :
    (k, v) ∈ insertA l k v := by
  induction l with
  | nil => simp [insertA]
  | cons kv tl ih =>
    obtain ⟨k0, v0⟩ := kv
    by_cases h : k0 = k
    · simp [insertA, h]
    · simp only [insertA, if_neg h]
      exact List.mem_cons_of_mem _ ih

theorem nodupKeys_insertA {α : Type} {l : List (String × α)} {k : String} {v : α}
    (h : NodupKeys l) : NodupKeys (insertA l k v) := by
  induction l with
  | nil =>
    simp [insertA, NodupKeys]
  | cons kv tl ih =>
    obtain ⟨k0, v0⟩ := kv
    rw [NodupKeys, List.pairwise_cons] at h
    by_cases h0 : k0 = k
    · subst h0
      rw [insertA, if_pos rfl, NodupKeys, List.pairwise_cons]
      exact ⟨fun b hb => h.1 b hb, h.2⟩
    · rw [insertA, if_neg h0, NodupKeys, List.pairwise_cons]
      constructor
      · intro b hb
        rcases mem_insertA_cases hb with hbtl | hbk
        · exact h.1 b hbtl
        · rw [hbk]
          exact h0
      · exact ih h.2

theorem findA_some_of_mem_nodup {α : Type} {l : List (String × α)} {k : String} {e : α}
    (hm : (k, e) ∈ l) (hnd : NodupKeys l) : findA l k = some e := by
  induction l with
  | nil => cases hm
  | cons kv tl ih =>
    obtain ⟨k0, v0⟩ := kv
    rw [NodupKeys, List.pairwise_cons] at hnd
    rcases List.mem_cons.mp hm with he | hm2
    · cases he
      simp [findA]
    · by_cases h : k0 = k
      · exact absurd h (hnd.1 (k, e) hm2)
      · simp only [findA, if_neg h]
        exact ih hm2 hnd.2

theorem mem_of_findA_some {α : Type} {l : List (String × α)} {k : String} {e : α}
    (h : findA l k = some e) : (k, e) ∈ l := by
  induction l with
  | nil => cases h
  | cons kv tl ih =>
    obtain ⟨k0, v0⟩ := kv
    by_cases h0 : k0 = k
    · subst h0
      simp [findA] at h
      exact h ▸ List.mem_cons_self _ _
    · simp only [findA, if_neg h0] at h
      exact List.mem_cons_of_mem _ (ih h)

/-! ## Lemmas: registry classification -/

theorem getBundledFS_eq_none {bm : BundledRegistry} {p : String}
    (h : isBundledPath bm p = false) : getBundledFS bm p = none := by
  induction bm with
  | nil => rfl
  | cons kv tl ih =>
    obtain ⟨key, b⟩ := kv
    rw [isBundledPath, List.any_cons, Bool.or_eq_false_iff] at h
    simp only [getBundledFS, h.1, if_neg (by simp [h.1] : ¬ strIsPfxOf key p = true)]
    exact ih h.2

theorem not_bundled_of_abs {bm : BundledRegistry} {q : String}
    (hwf : registryWF bm = true) (hq : goIsAbs q = true) : isBundledPath bm q = false := by
  induction bm with
  | nil => rfl
  | cons kv tl ih =>
    rw [registryWF, List.all_cons, Bool.and_eq_true] at hwf
    rw [isBundledPath, List.any_cons, Bool.or_eq_false_iff]
    refine ⟨?_, ih hwf.2⟩
    have h1 := hwf.1
    unfold strIsPfxOf
    cases hc : kv.1.data with
    | nil => simp [hc] at h1
    | cons c cs =>
      cases hd : q.data with
      | nil => simp [goIsAbs, hd] at hq
      | cons d ds =>
        simp [hc] at h1
        simp [goIsAbs, hd] at hq
        subst hq
        simp [List.isPrefixOf]
        intro hcd
        exact absurd hcd h1

theorem normalize_of_abs {bm : BundledRegistry} {p : String}
    (hb : isBundledPath bm p = false) (ha : goIsAbs p = true) :
    normalizePathBM bm p = p := by
  simp [normalizePathBM, hb, ha]

theorem goIsAbs_goCleanL_rooted (cs : List Char) :
    goIsAbs (String.mk (goCleanL ('/' :: cs))) = true := by
  simp [goCleanL, goIsAbs]

theorem goIsAbs_goJoinRoot (p : String) : goIsAbs (goJoinRoot p) = true :=
  goIsAbs_goCleanL_rooted _

theorem goIsAbs_normalize {bm : BundledRegistry} {p : String}
    (hb : isBundledPath bm p = false) : goIsAbs (normalizePathBM bm p) = true := by
  by_cases ha : goIsAbs p = true
  · rw [normalize_of_abs hb ha]; exact ha
  · simp [normalizePathBM, hb, ha, goIsAbs_goJoinRoot]

/-! ## Lemmas: directory chains -/

theorem dirPartL_head {c : Char} {tl pre : List Char} (h : dirPartL (c :: tl) = some pre) :
    ∃ r, pre = c :: r := by
  rw [dirPartL] at h
  cases hh : dirPartL tl with
  | some pre2 =>
    rw [hh] at h
    exact ⟨pre2, (Option.some_inj.mp h).symm⟩
  | none =>
    rw [hh] at h
    by_cases hc : c = '/'
    · rw [if_pos hc] at h
      exact ⟨[], (Option.some_inj.mp h).symm⟩
    · rw [if_neg hc] at h
      cases h

theorem goIsAbs_goDir {q : String} (h : goIsAbs q = true) : goIsAbs (goDir q) = true := by
  unfold goDir
  cases hd : q.data with
  | nil => simp [goIsAbs, hd] at h
  | cons c tl =>
    simp [goIsAbs, hd] at h
    cases hp : dirPartL (c :: tl) with
    | none =>
      rw [dirPartL] at hp
      cases hh : dirPartL tl with
      | some pre2 => rw [hh] at hp; cases hp
      | none => rw [hh, if_pos h] at hp; cases hp
    | some pre =>
      obtain ⟨r, hr⟩ := dirPartL_head hp
      subst hr
      subst h
      exact goIsAbs_goCleanL_rooted r

theorem chain_all_abs : ∀ (n : Nat) (q : String), goIsAbs q = true →
    ∀ d ∈ dirChainAux n q, goIsAbs d = true := by
  intro n
  induction n with
  | zero => intro q _ d hd; cases hd
  | succ n ih =>
    intro q hq d hd
    rw [dirChainAux] at hd
    by_cases h2 : q = "/" ∨ q = "."
    · rw [if_pos h2] at hd
      rcases List.mem_singleton.mp hd with rfl
      exact hq
    · rw [if_neg h2] at hd
      rcases List.mem_cons.mp hd with rfl | hd2
      · exact hq
      · exact ih (goDir q) (goIsAbs_goDir hq) d hd2

/-! ## Claim theorems -/

/-- Claim C1: a path the registry classifies as bundled makes every mutating
facade operation (WriteFile, MkdirAll, Remove, RemoveAll) return its
read-only-violation error with the instance, store and registry included,
left unchanged. -/
theorem bundled_paths_readonly (v : VFS) (p : String) (data : List Nat) (perm : Nat)
    (h : isBundledPath v.bundledManager p = true) :
    v.WriteFile p data perm = (some ("cannot write to bundled URL: " ++ p), v) ∧
    v.MkdirAll p perm = (some ("cannot create directories in bundled URL: " ++ p), v) ∧
    v.Remove p = (some ("cannot remove bundled URL: " ++ p), v) ∧
    v.RemoveAll p = (some ("cannot remove bundled URL: " ++ p), v) := by
  refine ⟨?_, ?_, ?_, ?_⟩ <;>
    simp [VFS.WriteFile, VFS.MkdirAll, VFS.Remove, VFS.RemoveAll, h]

/-- A one-entry archive used by the concrete instances below. -/
def sampleArchive : List (String × FileData) := [("core.go", ⟨[104, 105], 0o444⟩)]

/-- A registry holding the archive under the name stdlib. -/
def sampleReg : BundledRegistry := [("stdlib://", ⟨sampleArchive, "stdlib", ""⟩)]

/-- A hybrid instance: empty memory store plus the stdlib bundle. -/
def sampleHybrid : VFS := ⟨.hybrid, "/", emptyStore, sampleReg, none⟩

/-- Witness for C1 at a concrete bundled path of a hybrid instance. -/
theorem bundled_paths_readonly_witness :
    sampleHybrid.WriteFile "stdlib://core.go" [0] 0o644 =
      (some ("cannot write to bundled URL: " ++ "stdlib://core.go"), sampleHybrid) ∧
    sampleHybrid.Remove "stdlib://core.go" =
      (some ("cannot remove bundled URL: " ++ "stdlib://core.go"), sampleHybrid) := by
  have h := bundled_paths_readonly sampleHybrid "stdlib://core.go" [0] 0o644 (by decide)
  exact ⟨h.1, h.2.2.1⟩

/-- Claim C3, amended: normalizePath returns bundled paths unchanged; a
non-bundled relative path is joined onto "/" (which cleans separators and
dot segments) and the result is absolute; a non-bundled absolute path is
returned as-is, without any cleaning. -/
theorem normalizePath_cases (bm : BundledRegistry) (p : String) :
    (isBundledPath bm p = true → normalizePathBM bm p = p) ∧
    (isBundledPath bm p = false → goIsAbs p = false →
      normalizePathBM bm p = goJoinRoot p ∧ goIsAbs (normalizePathBM bm p) = true) ∧
    (isBundledPath bm p = false → goIsAbs p = true → normalizePathBM bm p = p) := by
  refine ⟨fun h => by simp [normalizePathBM, h], fun hb ha => ?_, fun hb ha => normalize_of_abs hb ha⟩
  constructor
  · simp [normalizePathBM, hb, ha]
  · exact goIsAbs_normalize hb

/-- Counterexample for C3 as stated: the absolute path "/a/../b.txt" is not
bundled, yet normalizePath returns it unchanged instead of the cleaned
"/b.txt" the claim requires. -/
theorem normalizePath_abs_uncleaned :
    normalizePathBM [] "/a/../b.txt" = "/a/../b.txt" ∧
    normalizePathBM [] "/a/../b.txt" ≠ "/b.txt" := by
  constructor
  · decide
  · decide

/-- Witness for the amended C3: a relative path with a dotdot segment is
rooted and cleaned. -/
theorem normalizePath_cases_witness :
    normalizePathBM [] "a/../b.txt" = "/b.txt" ∧
    goIsAbs (normalizePathBM [] "a/../b.txt") = true := by
  have h := (normalizePath_cases [] "a/../b.txt").2.1 (by decide) (by decide)
  refine ⟨?_, h.2⟩
  rw [h.1]
  decide

/-- Claim C5: the watch matcher accepts exactly when one of the ordered rules
applies — exact equality, the root pattern "/", directory-prefix containment,
or a successful glob match — and otherwise (including on a malformed
pattern) rejects. -/
theorem pathMatches_rules (f w : String) :
    pathMatches f w = true ↔
      f = w ∨ w = "/" ∨ strIsPfxOf (w ++ "/") f = true ∨ goMatch w f = .ok true := by
  unfold pathMatches
  by_cases h1 : f = w
  · simp [h1]
  by_cases h2 : w = "/"
  · simp [h1, h2]
  by_cases h3 : strIsPfxOf (w ++ "/") f = true
  · simp [h1, h2, h3]
  cases hm : goMatch w f with
  | error e => simp [h1, h2, h3, hm]
  | ok m => cases m <;> simp [h1, h2, h3, hm]

/-- Witness for C5: one hit per rule (directory containment and glob) and a
miss. -/
theorem pathMatches_rules_witness :
    pathMatches "/src/pkg/a.go" "/src" = true ∧
    pathMatches "/m.go" "/*.go" = true ∧
    ¬ ("/other.txt" = "/src" ∨ "/src" = "/" ∨
        strIsPfxOf ("/src" ++ "/") "/other.txt" = true ∨
        goMatch "/src" "/other.txt" = .ok true) := by
  refine ⟨?_, ?_, ?_⟩
  · exact (pathMatches_rules _ _).mpr (Or.inr (Or.inr (Or.inl (by decide))))
  · exact (pathMatches_rules _ _).mpr (Or.inr (Or.inr (Or.inr (by decide))))
  · intro h
    have := (pathMatches_rules "/other.txt" "/src").mpr h
    revert this
    decide

/-- Claim C8: memory and hybrid construction yields no watch subsystem, and
on any instance without one every watch call returns the fixed capability
error without mutating the instance, while IsWatching reports false. -/
theorem watch_calls_unavailable (v : VFS) (t : VFSType) (r p : String) (aId : Nat)
    (ht : t = .memory ∨ t = .hybrid) (hv : v.watchManager = none) :
    (New t r).watchManager = none ∧
    v.Watch p aId = (some notAvailErr, v) ∧
    v.StopWatch p = (some notAvailErr, v) ∧
    v.StopAllWatches = (some notAvailErr, v) ∧
    v.IsWatching p = false := by
  refine ⟨?_, ?_, ?_, ?_, ?_⟩
  · rcases ht with h | h <;> subst h <;> simp [New]
  all_goals simp [VFS.Watch, VFS.StopWatch, VFS.StopAllWatches, VFS.IsWatching, hv]

/-- Witness for C8 on a concrete hybrid instance. -/
theorem watch_calls_unavailable_witness :
    (New .memory "/").watchManager = none ∧
    sampleHybrid.Watch "/" 0 = (some notAvailErr, sampleHybrid) ∧
    sampleHybrid.StopWatch "/" = (some notAvailErr, sampleHybrid) ∧
    sampleHybrid.StopAllWatches = (some notAvailErr, sampleHybrid) ∧
    sampleHybrid.IsWatching "/" = false :=
  watch_calls_unavailable sampleHybrid .memory "/" "/" 0 (Or.inl rfl) rfl

/-- Resolution through a freshly replaced key: when the key matches the path
and no other registered key does, the lookup returns the new entry with the
key stripped. -/
theorem getBundledFS_insertA {bm : BundledRegistry} {k path : String} (b : BundledFS)
    (hm : strIsPfxOf k path = true)
    (honly : ∀ kv ∈ bm, strIsPfxOf kv.1 path = true → kv.1 = k) :
    getBundledFS (insertA bm k b) path = some (b, dropPfx path k) := by
  induction bm with
  | nil => simp [insertA, getBundledFS, hm]
  | cons kv tl ih =>
    obtain ⟨k0, b0⟩ := kv
    by_cases h0 : k0 = k
    · subst h0
      rw [insertA, if_pos rfl, getBundledFS, if_pos hm]
    · rw [insertA, if_neg h0, getBundledFS]
      have hk0 : ¬ strIsPfxOf k0 path = true :=
        fun hp => h0 (honly (k0, b0) (List.mem_cons_self _ _) hp)
      rw [if_neg hk0]
      exact ih (fun kv hkv hp => honly kv (List.mem_cons_of_mem _ hkv) hp)

/-- Claim C7: Register never returns an error; registering an already
registered name silently replaces its entry (last registration wins), so a
subsequent resolution of a path under that name uses the most recently
registered archive and subdirectory offset. -/
theorem register_last_wins (bm : BundledRegistry) (pfx0 s1 s2 : String)
    (a1 a2 : List (String × FileData)) (path : String)
    (hm : strIsPfxOf (regKey pfx0) path = true)
    (honly : ∀ kv ∈ bm, strIsPfxOf kv.1 path = true → kv.1 = regKey pfx0) :
    (bmRegister bm pfx0 a1 s1).1 = none ∧
    (bmRegister (bmRegister bm pfx0 a1 s1).2 pfx0 a2 s2).1 = none ∧
    getBundledFS (bmRegister (bmRegister bm pfx0 a1 s1).2 pfx0 a2 s2).2 path =
      some (⟨a2, trimSuffix (regKey pfx0) "://", s2⟩, dropPfx path (regKey pfx0)) := by
  refine ⟨rfl, rfl, ?_⟩
  apply getBundledFS_insertA _ hm
  intro kv hkv hp
  rcases mem_insertA_cases hkv with h2 | h2
  · exact honly kv h2 hp
  · rw [h2]

/-- Witness for C7: re-registering stdlib over an empty registry resolves a
path under it to the second archive and subdirectory. -/
theorem register_last_wins_witness :
    getBundledFS (bmRegister (bmRegister [] "stdlib" [] "v1").2 "stdlib" sampleArchive "v2").2
        "stdlib://core.go" =
      some (⟨sampleArchive, trimSuffix (regKey "stdlib") "://", "v2"⟩,
        dropPfx "stdlib://core.go" (regKey "stdlib")) :=
  (register_last_wins [] "stdlib" "v1" "v2" [] sampleArchive "stdlib://core.go"
    (by decide) (fun kv h => absurd h (List.not_mem_nil kv))).2.2

/-- Writes to the always-failing writer leave it unchanged and never panic,
through the whole tree printer. -/
theorem printTree_errWriter (fuel : Nat) :
    (∀ tree root indent, printTreeGo fuel tree root indent .errWriter = .ok .errWriter) ∧
    (∀ tree es indent, printEntries fuel tree es indent .errWriter = .ok .errWriter) := by
  induction fuel with
  | zero => exact ⟨fun _ _ _ => rfl, fun _ _ _ => rfl⟩
  | succ n ih =>
    constructor
    · intro tree root indent
      rw [printTreeGo]
      exact ih.2 _ _ _
    · intro tree es indent
      cases es with
      | nil => rfl
      | cons p rest =>
        rw [printEntries]
        cases h : findA tree p with
        | some xs =>
          simp only [h, writeString, Bind.bind, Except.bind, ih.1]
          exact ih.2 _ _ _
        | none =>
          simp only [h, writeString, Bind.bind, Except.bind]
          exact ih.2 _ _ _

/-- The bundled section of Dump also keeps the failing writer unchanged. -/
theorem dumpBundles_errWriter (v : VFS) :
    ∀ ps, dumpBundles v ps .errWriter = .ok .errWriter := by
  intro ps
  induction ps with
  | nil => rfl
  | cons p rest ih =>
    rw [dumpBundles]
    cases h : getBundledFS v.bundledManager (p ++ "://") with
    | some bp =>
      obtain ⟨b, rest2⟩ := bp
      simp only [h, writeString, Bind.bind, Except.bind, (printTree_errWriter _).1]
      exact ih
    | none =>
      simp only [h, writeString, Bind.bind, Except.bind, Pure.pure, Except.pure]
      exact ih

/-- Claim C4, amended: Dump reports no write failure at all — on a writer
whose writes all fail it still returns success (write errors are discarded),
and on the nil writer the very first io.WriteString panics instead of
returning an error. -/
theorem dump_ignores_writer_failures (v : VFS) :
    v.Dump GoWriter.nilWriter = .error GoPanic.nilInterface ∧
    v.Dump GoWriter.errWriter = .ok (none, GoWriter.errWriter) := by
  constructor
  · rfl
  · rw [VFS.Dump]
    simp only [writeString, Bind.bind, Except.bind, (printTree_errWriter _).1]
    by_cases h : (listRegistered v.bundledManager).isEmpty
    · simp [h, Pure.pure, Except.pure]
    · simp only [h, Bool.false_eq_true, if_false, writeString, Bind.bind, Except.bind,
        dumpBundles_errWriter, Pure.pure, Except.pure]

/-- Counterexample for C4 as stated: on a fresh memory instance, Dump with an
always-failing writer returns success rather than an error, and with the nil
writer it panics rather than returning an error. -/
theorem dump_failure_claim_false :
    VFS.Dump (New .memory "/") GoWriter.errWriter = .ok (none, GoWriter.errWriter) ∧
    VFS.Dump (New .memory "/") GoWriter.nilWriter = .error GoPanic.nilInterface := by
  constructor
  · rfl
  · rfl

/-! ## Lemmas for Copy, Move and the stores they touch -/

theorem storeRead_ok_inv {s : MutStore} {p : String} {bs : List Nat}
    (h : storeRead s p = .ok bs) :
    ∃ fd, findA s.files p = some (.file fd) ∧ fd.data = bs := by
  unfold storeRead at h
  cases hf : findA s.files p with
  | none => rw [hf] at h; cases h
  | some ent =>
    rw [hf] at h
    cases ent with
    | file fd =>
      refine ⟨fd, rfl, ?_⟩
      cases h
      rfl
    | unreadable => cases h

theorem bundleExists_of_read_ok {b : BundledFS} {bp : String} {bs : List Nat}
    (h : b.ReadFile bp = .ok bs) : b.Exists bp = true := by
  unfold BundledFS.ReadFile at h
  cases hf : findA b.archive (b.getFullPath bp) with
  | none => rw [hf] at h; cases h
  | some fd => simp [BundledFS.Exists, BundledFS.Stat, hf]

theorem remove_error_keeps_state (v : VFS) (p : String) (e : String)
    (h : (v.Remove p).1 = some e) : (v.Remove p).2 = v := by
  unfold VFS.Remove at h ⊢
  by_cases hb : isBundledPath v.bundledManager p = true
  · simp [hb]
  · simp only [hb, Bool.false_eq_true, if_false] at h ⊢
    unfold storeRemove at h ⊢
    by_cases h1 : (findA v.store.files (v.normalizePath p)).isSome
    · simp [h1] at h
    · simp only [h1, Bool.false_eq_true, if_false] at h ⊢
      by_cases h2 : (findA v.store.dirs (v.normalizePath p)).isSome
      · simp only [h2, if_true] at h ⊢
        by_cases h3 : (v.store.files.any (fun kv => strIsPfxOf (v.normalizePath p ++ "/") kv.1)
            || v.store.dirs.any (fun kv => strIsPfxOf (v.normalizePath p ++ "/") kv.1)) = true
        · simp [h3]
        · simp [h3] at h
      · simp [h2]

/-- Claim C6: Move is exactly Copy followed by Remove of the source; when the
Remove fails after a successful Copy, Move surfaces the Remove error, the
state stays the post-Copy state, and source and destination both remain
present with identical readable content — the copy is not rolled back. -/
theorem move_keeps_both_copies (v : VFS) (src dst : String) (v1 : VFS) (e : String)
    (hc : v.Copy src dst = (none, v1))
    (hr : (v1.Remove src).1 = some e) :
    v.Move src dst = (some e, v1) ∧
    v1.Exists src = true ∧
    v1.Exists dst = true ∧
    v1.ReadFile dst = v1.ReadFile src ∧
    (∃ bs, v1.ReadFile src = Except.ok bs) := by
  have hc0 := hc
  unfold VFS.Copy at hc
  cases hread : v.ReadFile src with
  | error er => rw [hread] at hc; simp at hc
  | ok data =>
    rw [hread] at hc
    dsimp only at hc
    cases hstat : v.Stat src with
    | error er => rw [hstat] at hc; simp at hc
    | ok info =>
      rw [hstat] at hc
      dsimp only at hc
      unfold VFS.WriteFile at hc
      by_cases hbdst : isBundledPath v.bundledManager dst = true
      · rw [if_pos hbdst] at hc; simp at hc
      · have hbdst' : isBundledPath v.bundledManager dst = false := by
          simpa using hbdst
        rw [if_neg hbdst] at hc
        dsimp only at hc
        have hv1 := congrArg Prod.snd hc
        dsimp only at hv1
        have f1 : v1.bundledManager = v.bundledManager := by rw [← hv1]
        have f2 : v1.store.files =
            insertA v.store.files (v.normalizePath dst) (.file ⟨data, info.mode⟩) := by
          rw [← hv1]
          rfl
        have hnorm1 : v1.normalizePath dst = v.normalizePath dst := by
          unfold VFS.normalizePath
          rw [f1]
        have hnorm2 : v1.normalizePath src = v.normalizePath src := by
          unfold VFS.normalizePath
          rw [f1]
        -- the destination read returns the copied bytes
        have hdst : v1.ReadFile dst = .ok data := by
          unfold VFS.ReadFile
          rw [f1, getBundledFS_eq_none hbdst', hnorm1]
          unfold storeRead
          rw [f2, findA_insertA_self]
        -- the source read is unchanged
        have hsrc : v1.ReadFile src = .ok data := by
          unfold VFS.ReadFile at hread ⊢
          rw [f1, hnorm2]
          cases hg : getBundledFS v.bundledManager src with
          | some pair =>
            rw [hg] at hread
            rw [hread]
          | none =>
            rw [hg] at hread
            by_cases hkk : v.normalizePath src = v.normalizePath dst
            · unfold storeRead
              rw [f2, hkk, findA_insertA_self]
            · unfold storeRead at hread ⊢
              rw [f2, findA_insertA_ne _ _ _ _ hkk]
              exact hread
        refine ⟨?_, ?_, ?_, ?_, ⟨data, hsrc⟩⟩
        · unfold VFS.Move
          rw [hc0]
          exact Prod.ext_iff.mpr ⟨hr, remove_error_keeps_state v1 src e hr⟩
        · -- the source still exists
          unfold VFS.Exists
          rw [f1, hnorm2]
          unfold VFS.ReadFile at hread
          cases hg : getBundledFS v.bundledManager src with
          | some pair =>
            rw [hg] at hread
            exact bundleExists_of_read_ok hread
          | none =>
            rw [hg] at hread
            by_cases hkk : v.normalizePath src = v.normalizePath dst
            · unfold storeStat
              rw [f2, hkk, findA_insertA_self]
            · unfold storeStat
              rw [f2, findA_insertA_ne _ _ _ _ hkk]
              obtain ⟨fd, hfd, _⟩ := storeRead_ok_inv hread
              rw [hfd]
        · -- the destination exists
          unfold VFS.Exists
          rw [f1, getBundledFS_eq_none hbdst', hnorm1]
          unfold storeStat
          rw [f2, findA_insertA_self]
        · rw [hdst, hsrc]

/-- Witness for C6: copying a bundled file out and then moving it — the
Remove of the bundled source fails, and both copies remain readable with the
same bytes. -/
theorem move_keeps_both_copies_witness :
    sampleHybrid.Move "stdlib://core.go" "/out.go" =
      (some ("cannot remove bundled URL: " ++ "stdlib://core.go"),
        (sampleHybrid.Copy "stdlib://core.go" "/out.go").2) ∧
    (sampleHybrid.Copy "stdlib://core.go" "/out.go").2.Exists "stdlib://core.go" = true ∧
    (sampleHybrid.Copy "stdlib://core.go" "/out.go").2.Exists "/out.go" = true ∧
    (sampleHybrid.Copy "stdlib://core.go" "/out.go").2.ReadFile "/out.go" =
      (sampleHybrid.Copy "stdlib://core.go" "/out.go").2.ReadFile "stdlib://core.go" ∧
    (∃ bs, (sampleHybrid.Copy "stdlib://core.go" "/out.go").2.ReadFile "stdlib://core.go" =
      Except.ok bs) :=
  move_keeps_both_copies sampleHybrid "stdlib://core.go" "/out.go"
    (sampleHybrid.Copy "stdlib://core.go" "/out.go").2
    ("cannot remove bundled URL: " ++ "stdlib://core.go") (by decide) (by decide)

/-! ## Lemmas: the MkdirAll creation fold -/

theorem findA_mkdirStep_preserve {perm : Nat} (d : List (String × Nat)) (el p : String)
    {m : Nat} (h : findA d p = some m) : findA (mkdirStep perm d el) p = some m := by
  unfold mkdirStep
  by_cases hc : el = "/" ∨ el = "." ∨ (findA d el).isSome = true
  · rw [if_pos hc]; exact h
  · rw [if_neg hc]
    have hne : p ≠ el := by
      intro he
      exact hc (Or.inr (Or.inr (by rw [← he, h]; rfl)))
    rw [findA_insertA_ne _ _ _ _ hne]
    exact h

theorem foldl_mkdirStep_preserve {perm : Nat} :
    ∀ (chain : List String) (d : List (String × Nat)) (p : String) (m : Nat),
      findA d p = some m → findA (chain.foldl (mkdirStep perm) d) p = some m := by
  intro chain
  induction chain with
  | nil => intro d p m h; exact h
  | cons el tl ih =>
    intro d p m h
    exact ih _ _ _ (findA_mkdirStep_preserve _ _ _ h)

theorem foldl_mkdirStep_creates {perm : Nat} :
    ∀ (chain : List String) (d : List (String × Nat)) (p : String),
      p ∈ chain → p ≠ "/" → p ≠ "." →
      findA (chain.foldl (mkdirStep perm) d) p = some ((findA d p).getD perm) := by
  intro chain
  induction chain with
  | nil => intro d p h _ _; cases h
  | cons el tl ih =>
    intro d p hmem h1 h2
    cases hf : findA d p with
    | some m0 =>
      simp only [List.foldl_cons, Option.getD_some]
      exact foldl_mkdirStep_preserve tl _ _ _ (findA_mkdirStep_preserve _ _ _ hf)
    | none =>
      by_cases hel : el = p
      · subst hel
        simp only [List.foldl_cons, Option.getD_none]
        have hstep : findA (mkdirStep perm d el) el = some perm := by
          unfold mkdirStep
          rw [if_neg ?hnc]
          · exact findA_insertA_self _ _ _
          case hnc =>
            rintro (h | h | h)
            · exact h1 h
            · exact h2 h
            · rw [hf] at h; cases h
        exact foldl_mkdirStep_preserve tl _ _ _ hstep
      · have hm : p ∈ tl := by
          rcases List.mem_cons.mp hmem with he | hm
          · exact absurd he.symm hel
          · exact hm
        have hstep : findA (mkdirStep perm d el) p = none := by
          unfold mkdirStep
          by_cases hc : el = "/" ∨ el = "." ∨ (findA d el).isSome = true
          · rw [if_pos hc]; exact hf
          · rw [if_neg hc, findA_insertA_ne _ _ _ _ (fun he => hel he.symm)]
            exact hf
        simp only [List.foldl_cons]
        rw [ih (mkdirStep perm d el) p hm h1 h2, hstep]

/-- Claim C9: on a non-bundled path whose parent directories do not yet
exist, WriteFile succeeds without a prior MkdirAll, implicitly creating every
intermediate directory of the normalized path with permission bits 0755, and
IsDir afterwards reports true for each of them. -/
theorem writefile_creates_parent_dirs (v : VFS) (p : String) (b : List Nat) (perm : Nat)
    (hb : isBundledPath v.bundledManager p = false)
    (hwf : registryWF v.bundledManager = true)
    (hkey : v.normalizePath p ∉ dirChain (goDir (v.normalizePath p)))
    (hfresh : ∀ d ∈ dirChain (goDir (v.normalizePath p)),
      findA v.store.files d = none ∧ (d ≠ "/" → findA v.store.dirs d = none)) :
    (v.WriteFile p b perm).1 = none ∧
    ∀ d ∈ dirChain (goDir (v.normalizePath p)),
      (v.WriteFile p b perm).2.IsDir d = true ∧
      (d ≠ "/" → findA (v.WriteFile p b perm).2.store.dirs d = some 0o755) := by
  have hmeta : (v.WriteFile p b perm).1 = none ∧
      (v.WriteFile p b perm).2.bundledManager = v.bundledManager ∧
      (v.WriteFile p b perm).2.store.files =
        insertA v.store.files (v.normalizePath p) (.file ⟨b, perm⟩) ∧
      (v.WriteFile p b perm).2.store.dirs =
        (dirChain (goDir (v.normalizePath p))).foldl (mkdirStep 0o755) v.store.dirs := by
    unfold VFS.WriteFile
    rw [if_neg (by simp [hb])]
    exact ⟨rfl, rfl, rfl, rfl⟩
  refine ⟨hmeta.1, ?_⟩
  intro d hd
  have habs_key : goIsAbs (v.normalizePath p) = true := goIsAbs_normalize hb
  have hd_abs : goIsAbs d = true :=
    chain_all_abs _ (goDir (v.normalizePath p)) (goIsAbs_goDir habs_key) d hd
  have hd_nb : isBundledPath v.bundledManager d = false := not_bundled_of_abs hwf hd_abs
  have hd_ne_dot : d ≠ "." := by
    intro he
    rw [he] at hd_abs
    exact absurd hd_abs (by decide)
  have hd_ne_key : d ≠ v.normalizePath p := fun he => hkey (he ▸ hd)
  have hfiles : findA (v.WriteFile p b perm).2.store.files d = none := by
    rw [hmeta.2.2.1, findA_insertA_ne _ _ _ _ hd_ne_key]
    exact (hfresh d hd).1
  by_cases hroot : d = "/"
  · constructor
    · unfold VFS.IsDir
      rw [hmeta.2.1, getBundledFS_eq_none hd_nb]
      unfold VFS.normalizePath
      rw [hmeta.2.1, normalize_of_abs hd_nb hd_abs]
      unfold storeStat
      rw [hfiles, if_pos hroot]
    · intro hne
      exact absurd hroot hne
  · have hdirs : findA (v.WriteFile p b perm).2.store.dirs d = some 0o755 := by
      rw [hmeta.2.2.2,
        foldl_mkdirStep_creates (dirChain (goDir (v.normalizePath p))) _ _ hd hroot hd_ne_dot,
        (hfresh d hd).2 hroot]
      rfl
    constructor
    · unfold VFS.IsDir
      rw [hmeta.2.1, getBundledFS_eq_none hd_nb]
      unfold VFS.normalizePath
      rw [hmeta.2.1, normalize_of_abs hd_nb hd_abs]
      unfold storeStat
      rw [hfiles, if_neg hroot, hdirs]
    · intro _
      exact hdirs

/-- Witness for C9: writing a file three levels deep into a fresh memory
instance creates the intermediate directories with mode 0755. -/
theorem writefile_creates_parent_dirs_witness :
    ((New .memory "/").WriteFile "/x/y/z.txt" [1] 0o600).1 = none ∧
    ((New .memory "/").WriteFile "/x/y/z.txt" [1] 0o600).2.IsDir "/x/y" = true ∧
    findA ((New .memory "/").WriteFile "/x/y/z.txt" [1] 0o600).2.store.dirs "/x/y" =
      some 0o755 := by
  have h := writefile_creates_parent_dirs (New .memory "/") "/x/y/z.txt" [1] 0o600
    (by decide) (by decide) (by decide) (by decide)
  have h2 := h.2 "/x/y" (by decide)
  exact ⟨h.1, h2.1, h2.2 (by decide)⟩

/-! ## Lemmas: the Clone walk -/

theorem writefile_meta (w : VFS) (f : String) (d : List Nat) (m : Nat) :
    (w.WriteFile f d m).2.vfsType = w.vfsType ∧
    (w.WriteFile f d m).2.root = w.root ∧
    (w.WriteFile f d m).2.bundledManager = w.bundledManager ∧
    (w.WriteFile f d m).2.watchManager = w.watchManager := by
  unfold VFS.WriteFile
  by_cases hb : isBundledPath w.bundledManager f = true
  · rw [if_pos hb]; exact ⟨rfl, rfl, rfl, rfl⟩
  · rw [if_neg hb]; exact ⟨rfl, rfl, rfl, rfl⟩

theorem cloneLoop_nil (v : VFS) (acc : VFS) : cloneLoop v [] acc = (none, acc) := rfl

theorem cloneLoop_cons (v : VFS) (k : String) (ent : Entry) (tl : List (String × Entry))
    (acc : VFS) :
    cloneLoop v ((k, ent) :: tl) acc =
      if isBundledPath v.bundledManager k then cloneLoop v tl acc
      else
        match v.ReadFile k with
        | .error e => (some e, acc)
        | .ok data =>
          match acc.WriteFile k data (cloneMode ent) with
          | (some e, acc2) => (some e, acc2)
          | (none, acc2) => cloneLoop v tl acc2 := by
  rfl

theorem cloneLoop_meta (v : VFS) :
    ∀ (l : List (String × Entry)) (acc : VFS),
      (cloneLoop v l acc).2.vfsType = acc.vfsType ∧
      (cloneLoop v l acc).2.root = acc.root ∧
      (cloneLoop v l acc).2.bundledManager = acc.bundledManager ∧
      (cloneLoop v l acc).2.watchManager = acc.watchManager := by
  intro l
  induction l with
  | nil => intro acc; exact ⟨rfl, rfl, rfl, rfl⟩
  | cons kv tl ih =>
    intro acc
    obtain ⟨k, ent⟩ := kv
    rw [cloneLoop_cons]
    by_cases hb : isBundledPath v.bundledManager k = true
    · rw [if_pos hb]; exact ih acc
    · rw [if_neg hb]
      cases hr : v.ReadFile k with
      | error e => exact ⟨rfl, rfl, rfl, rfl⟩
      | ok data =>
        dsimp only
        rcases hw : acc.WriteFile k data (cloneMode ent) with ⟨e0, acc2⟩
        have hmw := writefile_meta acc k data (cloneMode ent)
        rw [hw] at hmw
        cases e0 with
        | some e => exact hmw
        | none =>
          have := ih acc2
          exact ⟨this.1.trans hmw.1, this.2.1.trans hmw.2.1,
            this.2.2.1.trans hmw.2.2.1, this.2.2.2.trans hmw.2.2.2⟩

theorem insertByKey_perm {α : Type} (x : String × α) (l : List (String × α)) :
    List.Perm (insertByKey x l) (x :: l) := by
  induction l with
  | nil => exact List.Perm.refl _
  | cons y tl ih =>
    unfold insertByKey
    by_cases h : lexLe x.1.data y.1.data = true
    · rw [if_pos h]
    · rw [if_neg h]
      exact (List.Perm.cons y ih).trans (List.Perm.swap x y tl)

theorem sortByKey_perm {α : Type} (l : List (String × α)) :
    List.Perm (sortByKey l) l := by
  induction l with
  | nil => exact List.Perm.refl _
  | cons x tl ih =>
    have : sortByKey (x :: tl) = insertByKey x (sortByKey tl) := rfl
    rw [this]
    exact (insertByKey_perm x (sortByKey tl)).trans (List.Perm.cons x ih)

theorem all_insertA {α : Type} {q : String × α → Bool} {l : List (String × α)}
    {k : String} {v : α} (hl : l.all q = true) (hv : q (k, v) = true) :
    (insertA l k v).all q = true := by
  induction l with
  | nil => simp [insertA, hv]
  | cons kv tl ih =>
    obtain ⟨k0, v0⟩ := kv
    rw [List.all_cons, Bool.and_eq_true] at hl
    by_cases h0 : k0 = k
    · subst h0
      rw [insertA, if_pos rfl, List.all_cons, Bool.and_eq_true]
      exact ⟨hv, hl.2⟩
    · rw [insertA, if_neg h0, List.all_cons, Bool.and_eq_true]
      exact ⟨hl.1, ih hl.2⟩

/-- The copied-file invariant of the Clone walk: under the store and registry
well-formedness invariants, a non-bundled file of the source survives into
the clone with its bytes and mode. -/
theorem cloneLoop_copies (v : VFS) (key : String) (bf : FileData)
    (hra : allReadable v.store = true)
    (hka : keysAbs v.store = true)
    (hnd : NodupKeys v.store.files)
    (hkey_nb : isBundledPath v.bundledManager key = false)
    (hglob : (key, Entry.file bf) ∈ v.store.files) :
    ∀ (l : List (String × Entry)) (acc : VFS),
      (∀ kv ∈ l, kv ∈ v.store.files) →
      acc.bundledManager = v.bundledManager →
      ((key, Entry.file bf) ∈ l ∨ findA acc.store.files key = some (.file bf)) →
      findA (cloneLoop v l acc).2.store.files key = some (.file bf) := by
  intro l
  induction l with
  | nil =>
    intro acc _ _ hinv
    rcases hinv with h | h
    · cases h
    · exact h
  | cons kv tl ih =>
    intro acc hsub hbm hinv
    obtain ⟨k, ent⟩ := kv
    have hkv_mem : (k, ent) ∈ v.store.files := hsub (k, ent) (List.mem_cons_self _ _)
    rw [cloneLoop_cons]
    by_cases hbk : isBundledPath v.bundledManager k = true
    · rw [if_pos hbk]
      apply ih acc (fun kv h => hsub kv (List.mem_cons_of_mem _ h)) hbm
      rcases hinv with hin | hfa
      · rcases List.mem_cons.mp hin with he | hin2
        · exfalso
          have hkeq : key = k := congrArg Prod.fst he
          rw [hkeq] at hkey_nb
          rw [hkey_nb] at hbk
          cases hbk
        · exact Or.inl hin2
      · exact Or.inr hfa
    · rw [if_neg hbk]
      have hbk' : isBundledPath v.bundledManager k = false := by simpa using hbk
      have hk_abs : goIsAbs k = true := List.all_eq_true.mp hka (k, ent) hkv_mem
      obtain ⟨fd, rfl⟩ : ∃ fd, ent = .file fd := by
        have hq := List.all_eq_true.mp hra (k, ent) hkv_mem
        cases ent with
        | file fd => exact ⟨fd, rfl⟩
        | unreadable => cases hq
      have hread : v.ReadFile k = .ok fd.data := by
        unfold VFS.ReadFile
        rw [getBundledFS_eq_none hbk']
        unfold VFS.normalizePath
        rw [normalize_of_abs hbk' hk_abs]
        unfold storeRead
        rw [findA_some_of_mem_nodup hkv_mem hnd]
      rw [hread]
      dsimp only
      have hnormacc : VFS.normalizePath acc k = k := by
        unfold VFS.normalizePath
        rw [hbm]
        exact normalize_of_abs hbk' hk_abs
      unfold VFS.WriteFile
      rw [if_neg (by rw [hbm]; simp [hbk'])]
      dsimp only
      rw [hnormacc]
      have hinv2 : (key, Entry.file bf) ∈ tl ∨
          findA (insertA acc.store.files k (.file ⟨fd.data, fd.mode⟩)) key =
            some (.file bf) := by
        rcases hinv with hin | hfa
        · rcases List.mem_cons.mp hin with he | hin2
          · injection he with h1 h2
            injection h2 with h3
            subst h1
            subst h3
            right
            exact findA_insertA_self _ _ _
          · exact Or.inl hin2
        · right
          by_cases hkk : key = k
          · subst hkk
            have e1 := findA_some_of_mem_nodup hglob hnd
            have e2 := findA_some_of_mem_nodup hkv_mem hnd
            rw [e1] at e2
            injection e2 with e3
            injection e3 with e4
            rw [← e4]
            exact findA_insertA_self _ _ _
          · rw [findA_insertA_ne _ _ _ _ hkk]
            exact hfa
      exact ih _ (fun kv h => hsub kv (List.mem_cons_of_mem _ h)) hbm hinv2

/-- Claim C2: on a well-formed instance, writing bytes b to a non-bundled
path succeeds, reading the path back returns exactly b, and the same read on
the instance produced by Clone after the write also returns exactly b. -/
theorem write_read_roundtrip_clone (v : VFS) (p : String) (b : List Nat) (perm : Nat)
    (hb : isBundledPath v.bundledManager p = false)
    (hwf : registryWF v.bundledManager = true)
    (hra : allReadable v.store = true)
    (hka : keysAbs v.store = true)
    (hnd : NodupKeys v.store.files) :
    (v.WriteFile p b perm).1 = none ∧
    (v.WriteFile p b perm).2.ReadFile p = .ok b ∧
    ((v.WriteFile p b perm).2.Clone).ReadFile p = .ok b := by
  have hmeta : (v.WriteFile p b perm).1 = none ∧
      (v.WriteFile p b perm).2.bundledManager = v.bundledManager ∧
      (v.WriteFile p b perm).2.store.files =
        insertA v.store.files (v.normalizePath p) (.file ⟨b, perm⟩) := by
    unfold VFS.WriteFile
    rw [if_neg (by simp [hb])]
    exact ⟨rfl, rfl, rfl⟩
  have habs : goIsAbs (v.normalizePath p) = true := goIsAbs_normalize hb
  have hkey_nb : isBundledPath v.bundledManager (v.normalizePath p) = false :=
    not_bundled_of_abs hwf habs
  have hnorm1 : (v.WriteFile p b perm).2.normalizePath p = v.normalizePath p := by
    unfold VFS.normalizePath
    rw [hmeta.2.1]
  have hread1 : (v.WriteFile p b perm).2.ReadFile p = .ok b := by
    unfold VFS.ReadFile
    rw [hmeta.2.1, getBundledFS_eq_none hb, hnorm1]
    unfold storeRead
    rw [hmeta.2.2, findA_insertA_self]
  refine ⟨hmeta.1, hread1, ?_⟩
  -- invariants of the post-write instance
  have hra1 : allReadable (v.WriteFile p b perm).2.store = true := by
    unfold allReadable
    rw [hmeta.2.2]
    exact all_insertA hra rfl
  have hka1 : keysAbs (v.WriteFile p b perm).2.store = true := by
    unfold keysAbs
    rw [hmeta.2.2]
    exact all_insertA hka habs
  have hnd1 : NodupKeys (v.WriteFile p b perm).2.store.files := by
    rw [hmeta.2.2]
    exact nodupKeys_insertA hnd
  have hglob1 : (v.normalizePath p, Entry.file ⟨b, perm⟩) ∈
      (v.WriteFile p b perm).2.store.files := by
    rw [hmeta.2.2]
    exact mem_insertA_self _ _ _
  have hkey_nb1 : isBundledPath (v.WriteFile p b perm).2.bundledManager
      (v.normalizePath p) = false := by
    rw [hmeta.2.1]
    exact hkey_nb
  -- the clone keeps the file
  have hcopied := cloneLoop_copies (v.WriteFile p b perm).2 (v.normalizePath p) ⟨b, perm⟩
    hra1 hka1 hnd1 hkey_nb1 hglob1
    (sortByKey (v.WriteFile p b perm).2.store.files)
    ⟨.memory, (v.WriteFile p b perm).2.root, emptyStore,
      (v.WriteFile p b perm).2.bundledManager, none⟩
    (fun kv h => (sortByKey_perm _).subset h)
    rfl
    (Or.inl ((sortByKey_perm _).mem_iff.mpr hglob1))
  have hcm := cloneLoop_meta (v.WriteFile p b perm).2
    (sortByKey (v.WriteFile p b perm).2.store.files)
    ⟨.memory, (v.WriteFile p b perm).2.root, emptyStore,
      (v.WriteFile p b perm).2.bundledManager, none⟩
  have hcbm : ((v.WriteFile p b perm).2.Clone).bundledManager = v.bundledManager :=
    hcm.2.2.1.trans hmeta.2.1
  have hb2 : isBundledPath ((v.WriteFile p b perm).2.Clone).bundledManager p = false := by
    rw [hcbm]; exact hb
  have hnormc : ((v.WriteFile p b perm).2.Clone).normalizePath p = v.normalizePath p := by
    unfold VFS.normalizePath
    rw [hcbm]
  have hfc : findA ((v.WriteFile p b perm).2.Clone).store.files (v.normalizePath p) =
      some (.file ⟨b, perm⟩) := hcopied
  unfold VFS.ReadFile
  rw [getBundledFS_eq_none hb2, hnormc]
  unfold storeRead
  rw [hfc]

/-- Witness for C2 on the hybrid instance: write two bytes, read them back
directly and through a clone. -/
theorem write_read_roundtrip_clone_witness :
    (sampleHybrid.WriteFile "/main.go" [10, 20] 0o644).1 = none ∧
    (sampleHybrid.WriteFile "/main.go" [10, 20] 0o644).2.ReadFile "/main.go" =
      .ok [10, 20] ∧
    ((sampleHybrid.WriteFile "/main.go" [10, 20] 0o644).2.Clone).ReadFile "/main.go" =
      .ok [10, 20] :=
  write_read_roundtrip_clone sampleHybrid "/main.go" [10, 20] 0o644
    (by decide) (by decide) (by decide) (by decide) (by decide)

/-- A disk-backed source whose second file fails to read mid-walk. -/
def partialSrc : VFS :=
  ⟨.disk, ".", ⟨[("/a.txt", .file ⟨[104, 105], 0o644⟩), ("/b.txt", .unreadable)], []⟩, [],
    some ⟨[], false⟩⟩

/-- Claim C10: Clone exposes no error result — it returns exactly the state
accumulated by its walk, a fresh memory-backed instance sharing the bundled
registry; on a source whose walk fails mid-way the walk error is discarded
and the clone is silently left partially populated. -/
theorem clone_discards_walk_errors :
    (∀ v : VFS, v.Clone = (v.cloneWalk).2 ∧ (v.Clone).vfsType = .memory ∧
      (v.Clone).bundledManager = v.bundledManager ∧ (v.Clone).watchManager = none) ∧
    ((partialSrc.cloneWalk).1 = some "input/output error" ∧
      partialSrc.Clone.ReadFile "/a.txt" = .ok [104, 105] ∧
      partialSrc.Clone.ReadFile "/b.txt" = .error "file does not exist") := by
  constructor
  · intro v
    have hm := cloneLoop_meta v (sortByKey v.store.files)
      ⟨.memory, v.root, emptyStore, v.bundledManager, none⟩
    exact ⟨rfl, hm.1, hm.2.2.1, hm.2.2.2⟩
  · exact ⟨by decide, by decide, by decide⟩

end Vfs
